import Mathlib

/-!
Verification development for the automated GitHub-repository evaluation
pipeline (`app/api/nodes/github.py`): source collection and chunking,
static-analysis / duplication-check degradation behaviour, repository
structure analysis, LLM scoring, and weighted score aggregation.

Modelling conventions:
* Machine floats of the Python code are modelled as exact rationals (`ℚ`).
  `round(x, 2)` is modelled as `round2` (round half towards the larger
  integer at the second decimal); no value considered in the theorems below
  sits on a rounding tie, so the half-even/half-up difference is immaterial.
* Python strings are modelled as `List Char`; the Python `str` operations
  used by the code (`in`, `split`, `strip`, `lower`, `startswith`,
  `endswith`, the `"/"` path join) are given faithful executable definitions below.
* External processes (`radon`, `pylint`, `jscpd`), `json.loads`, `float(...)`
  and the hosted LLM are external effects: each is modelled as an explicit
  outcome value / oracle function describing what the external call
  returned (success with its parsed payload, or the exception the Python
  `except` clauses catch).  All control flow around those calls is
  translated from the source.
* A file on disk is modelled by its name and its `splitlines()` result; a
  directory tree is the `FsTree`/`FsForest` type, and `os.walk` is the
  `walkAll`/`walkPruned` functions (top-down order, as CPython documents).
  The repository root directory itself is taken to have a path free of
  dot-segments and marker substrings (it is a fresh `tempfile.mkdtemp`
  name in the code).
-/

/-! ## Python string primitives over `List Char` -/

/-- Python `s.startswith(pat)`: `pat` is a prefix of `s`. -/
def lstarts : List Char → List Char → Bool
  | [], _ => true
  | _ :: _, [] => false
  | a :: as, b :: bs => a == b && lstarts as bs

/-- Python `pat in s`: `pat` occurs contiguously in `s`. -/
def lcontains (pat : List Char) : List Char → Bool
  | [] => lstarts pat []
  | c :: r => lstarts pat (c :: r) || lcontains pat r

/-- First occurrence of `pat` in `s`: `some (before, after)` splits `s` as
`before ++ pat ++ after` at the leftmost occurrence (like Python
`s.split(pat, 1)`). -/
def lfind (pat : List Char) : List Char → Option (List Char × List Char)
  | [] => if lstarts pat [] then some ([], []) else none
  | c :: r =>
    if lstarts pat (c :: r) then some ([], (c :: r).drop pat.length)
    else match lfind pat r with
      | none => none
      | some ab => some (c :: ab.1, ab.2)

/-- Fueled worker for `lsplit`; fuel bounds the number of produced pieces. -/
def lsplitF (pat : List Char) : Nat → List Char → List (List Char)
  | 0, s => [s]
  | Nat.succ n, s =>
    match lfind pat s with
    | none => [s]
    | some ab => ab.1 :: lsplitF pat n ab.2

/-- Python `s.split(pat)` for a non-empty separator `pat`: split at every
(leftmost-first, non-overlapping) occurrence. -/
def lsplit (pat s : List Char) : List (List Char) :=
  lsplitF pat (s.length + 1) s

/-- Python `s.strip()`: drop leading and trailing whitespace. -/
def ltrim (s : List Char) : List Char :=
  ((s.dropWhile Char.isWhitespace).reverse.dropWhile Char.isWhitespace).reverse

/-- Python `s.lower()`. -/
def llower (s : List Char) : List Char := s.map Char.toLower

/-- Python `s.endswith(suf)`. -/
def lends (suf s : List Char) : Bool := lstarts suf.reverse s.reverse

/-- The `"/"` join of path segments (the normalized `os.sep` join of a
walk root, after `root.replace("\\", "/")`). -/
def pathStr : List (List Char) → List Char
  | [] => []
  | [s] => s
  | s :: t :: rest => s ++ '/' :: pathStr (t :: rest)

/-- Python `seg.startswith('.')` on a path segment. -/
def dotSeg (s : String) : Bool :=
  match s.data with
  | [] => false
  | c :: _ => c == '.'

/-! ## Score aggregation (`compute_final_score`, lines 296-307) -/

/-- Python `round(x, 2)` on the exact rational value. -/
def round2 (x : ℚ) : ℚ := ((round (x * 100) : ℤ) : ℚ) / 100

/-- `compute_final_score` (github.py lines 296-307), translated verbatim:
the six weighted terms, summed and rounded to two decimals. -/
def compute_final_score (plagiarism logic relevance style pylint_sc structure_sc : ℚ) : ℚ :=
  let plagiarism_score := (100 - plagiarism) * 0.3
  let logic_score := logic * 0.25
  let relevance_score := relevance * 0.2
  let style_score := style * 0.1
  let quality_score := (pylint_sc * 10) * 0.1
  let structure_bonus := structure_sc * 0.05
  round2 (plagiarism_score + logic_score + relevance_score +
    style_score + quality_score + structure_bonus)

/-! ## Repository structure report and structure score -/

/-- The `structure_analysis` dictionary of `analyze_repo_structure`. -/
structure StructureReport where
  has_readme : Bool
  has_requirements : Bool
  has_dockerfile : Bool
  has_github_actions : Bool
  has_tests : Bool
  file_count : Nat
  dir_count : Nat
deriving DecidableEq

/-- The `structure_score` sum computed inline in `evaluate_repository`
(github.py lines 389-396): presence bonuses plus `min(file_count/10, 20)`. -/
def structure_score (r : StructureReport) : ℚ :=
  (if r.has_readme then 20 else 0) +
  (if r.has_requirements then 20 else 0) +
  (if r.has_tests then 15 else 0) +
  (if r.has_dockerfile then 15 else 0) +
  (if r.has_github_actions then 10 else 0) +
  min ((r.file_count : ℚ) / 10) 20

/-! ## Source collection and chunking (`get_code_files`, lines 39-63) -/

/-- One labeled chunk appended to `code_chunks`: the header fields of the
`"# FILE: {f} (lines {a}-{b})"` line plus the window's lines (the chunk
body text is the `"\n"`-join of `body`). -/
structure Chunk where
  file : String
  lstart : Nat
  lineEnd : Nat
  body : List String
deriving DecidableEq

/-- The chunking loop `for i in range(0, len(lines), 1000)` of
`get_code_files`, one window per loop iteration: window `k` starts at line
index `1000*k`, is labeled with the 1-based inclusive range
`(i+1, min(i+1000, len(lines)))`, and carries `lines[i:i+1000]`. -/
def chunkFile (f : String) (lines : List String) : List Chunk :=
  (List.range ((lines.length + 999) / 1000)).map fun k =>
    ⟨f, 1000 * k + 1, min (1000 * k + 1000) lines.length,
      (lines.drop (1000 * k)).take 1000⟩

/-- The default extension allow-list of `get_code_files`. -/
def default_exts : List String :=
  [".py", ".js", ".cpp", ".java", ".c", ".h", ".ts", ".html", ".css", ".md", ".txt"]

/-- `any(f.endswith(ext) for ext in exts)` with the default list. -/
def extMatches (f : String) : Bool :=
  default_exts.any fun e => lends e.data f.data

/-- `content.strip()` is truthy: the file (modelled by its `splitlines()`
lines) has some non-whitespace character. -/
def fileNonEmpty (lines : List String) : Bool :=
  lines.any fun l => l.data.any fun c => !c.isWhitespace

/-- Per-file processing of `get_code_files`: extension filter, non-empty
filter, then the chunking loop. -/
def fileChunks (f : String) (lines : List String) : List Chunk :=
  if extMatches f && fileNonEmpty lines then chunkFile f lines else []

/-! ## Directory trees and the two walks -/

mutual
/-- A directory: subdirectories (in `os.walk` order) and files; each file
is its name together with its `splitlines()` content. -/
inductive FsTree where
  | node : FsForest → List (String × List String) → FsTree
/-- The ordered list of named subdirectories of a directory. -/
inductive FsForest where
  | fnil : FsForest
  | fcons : String → FsTree → FsForest → FsForest
end

mutual
/-- `os.walk` without pruning (as in `get_code_files` and the `py_files`
comprehension of `run_static_analysis`): every directory is visited
top-down; each visit yields the root (as segments below the repository
root) and the file list. -/
def walkAll : FsTree → List (List String × List (String × List String))
  | .node ds fs => ([], fs) :: walkAllF ds
/-- Walk of a forest of subdirectories, prefixing each subtree root. -/
def walkAllF : FsForest → List (List String × List (String × List String))
  | .fnil => []
  | .fcons d t rest =>
    (walkAll t).map (fun p => (d :: p.1, p.2)) ++ walkAllF rest
end

/-- `any(part.startswith('.') for part in root.split(os.sep))`. -/
def hiddenRoot (root : List String) : Bool := root.any dotSeg

/-- Contribution of one walk entry to `code_chunks`: a root containing a
dot-segment is skipped (`continue`), otherwise every file is processed. -/
def entryChunks (e : List String × List (String × List String)) : List Chunk :=
  if hiddenRoot e.1 then []
  else (e.2.map fun fe => fileChunks fe.1 fe.2).flatten

/-- `get_code_files` (github.py lines 39-63) over a directory tree, with
the default extension list. -/
def get_code_files (t : FsTree) : List Chunk :=
  ((walkAll t).map entryChunks).flatten

/-- The `py_files` list comprehension of `run_static_analysis` (lines
99-100): `.py` files in non-hidden roots, as (root, name) pairs. -/
def pyFilesOf (t : FsTree) : List (List String × String) :=
  ((walkAll t).map fun e =>
    if hiddenRoot e.1 then []
    else (e.2.filter fun fe => lends ".py".data fe.1.data).map fun fe => (e.1, fe.1)).flatten

/-- In-place filter `dirs[:] = [d for d in dirs if not d.startswith('.')]`
applied to a forest (keeps subtrees untouched). -/
def filterF : FsForest → FsForest
  | .fnil => .fnil
  | .fcons d t rest => if dotSeg d then filterF rest else .fcons d t (filterF rest)

/-- Number of subdirectories in a forest (`len(dirs)`). -/
def flen : FsForest → Nat
  | .fnil => 0
  | .fcons _ _ rest => flen rest + 1

mutual
/-- `os.walk` with the in-place hidden-directory pruning of
`analyze_repo_structure`: each visited root yields its path segments, its
post-filter subdirectory count, and its file names; pruned subtrees are
never visited. -/
def walkPruned (root : List String) : FsTree → List (List String × Nat × List String)
  | .node ds fs =>
    (root, flen (filterF ds), fs.map Prod.fst) :: walkPrunedF root ds
/-- Pruned walk of a forest: dot-prefixed entries are skipped entirely
(they were removed from `dirs` before descent). -/
def walkPrunedF (root : List String) : FsForest → List (List String × Nat × List String)
  | .fnil => []
  | .fcons d t rest =>
    (if dotSeg d then [] else walkPruned (root ++ [d]) t) ++ walkPrunedF root rest
end

mutual
/-- Remove every dot-prefixed directory (and its whole subtree). -/
def pruneHidden : FsTree → FsTree
  | .node ds fs => .node (pruneF ds) fs
/-- `pruneHidden` on a forest. -/
def pruneF : FsForest → FsForest
  | .fnil => .fnil
  | .fcons d t rest =>
    if dotSeg d then pruneF rest else .fcons d (pruneHidden t) (pruneF rest)
end

mutual
/-- Every directory name anywhere in the tree is free of the character
`'.'` (a sufficient condition used to settle the CI-flag claim). -/
def treeCleanDirs : FsTree → Bool
  | .node ds _ => forestCleanDirs ds
/-- `treeCleanDirs` on a forest. -/
def forestCleanDirs : FsForest → Bool
  | .fnil => true
  | .fcons d t rest =>
    !(d.data.any fun c => c == '.') && treeCleanDirs t && forestCleanDirs rest
end

/-! ## `analyze_repo_structure` (lines 157-188) -/

/-- The per-file `if/elif` chain of `analyze_repo_structure` (lines
175-186), applied in file order with the current root. -/
def fileStep (root : List String) (r : StructureReport) (fname : String) : StructureReport :=
  let fl := llower fname.data
  if fl = "readme.md".data ∨ fl = "readme.txt".data ∨ fl = "readme".data then
    { r with has_readme := true }
  else if fl = "requirements.txt".data ∨ fl = "pyproject.toml".data ∨ fl = "setup.py".data then
    { r with has_requirements := true }
  else if fl = "dockerfile".data then
    { r with has_dockerfile := true }
  else if lcontains ".github/workflows".data (pathStr (root.map String.data)) then
    { r with has_github_actions := true }
  else if lcontains "test".data (llower (pathStr (root.map String.data))) ∨
      lcontains "tests".data (llower (pathStr (root.map String.data))) then
    { r with has_tests := true }
  else r

/-- Processing of one visited directory: accumulate `dir_count` and
`file_count`, then run the file loop. -/
def nodeStep (r : StructureReport) (e : List String × Nat × List String) : StructureReport :=
  e.2.2.foldl (fileStep e.1)
    { r with dir_count := r.dir_count + e.2.1, file_count := r.file_count + e.2.2.length }

/-- `analyze_repo_structure` (github.py lines 157-188): pruned walk from
the repository root, folding every visited directory into the report. -/
def analyze_repo_structure (t : FsTree) : StructureReport :=
  (walkPruned [] t).foldl nodeStep ⟨false, false, false, false, false, 0, 0⟩

/-! ## Static analysis (`run_static_analysis`, lines 68-122) -/

/-- A complexity issue appended for a function with complexity above 7. -/
structure Issue where
  file : String
  function : String
  complexity : Int
  ftype : String
deriving DecidableEq

/-- One function record of the radon JSON (`{name, complexity, type}`);
every field is read with a `.get` default in the code, hence `Option`. -/
structure FuncRec where
  name : Option String
  complexity : Option Int
  ftype : Option String
deriving DecidableEq

/-- Outcome of the `radon` subprocess call: either one of the caught
exceptions (`TimeoutExpired`, `FileNotFoundError`) or a completed run with
its exit code and, when `json.loads(stdout)` is attempted, its result
(`Except.error` is the `JSONDecodeError` message). -/
inductive RadonOutcome where
  | exc (msg : String)
  | ran (returncode : Int) (stdoutJson : Except String (List (String × List FuncRec)))

/-- The `radon_result` value: `{}`, the parsed JSON, or `{"error": msg}`. -/
inductive RadonRes where
  | emptyRes
  | okRes (data : List (String × List FuncRec))
  | errRes (msg : String)
deriving DecidableEq

/-- The issue-collection loop over the radon JSON (lines 85-93). -/
def radonIssues (data : List (String × List FuncRec)) : List Issue :=
  (data.map fun p =>
    (p.2.filter fun f => 7 < f.complexity.getD 0).map fun f =>
      ⟨p.1, f.name.getD "unknown", f.complexity.getD 0, f.ftype.getD "unknown"⟩).flatten

/-- One parsed line of pylint stdout: `rated v` is a line containing
`"Your code has been rated at"` whose score token parses to `v`
(`none` when `float(...)` raises and the `except` clause passes). -/
inductive PyLine where
  | rated (v : Option ℚ)
  | other
deriving DecidableEq

/-- Outcome of the `pylint` subprocess call. -/
inductive PyOutcome where
  | exc (msg : String)
  | ran (returncode : Int) (lines : List PyLine)

/-- The stdout scan of lines 112-118: the first successfully parsed
`"rated at"` line wins (`break`); parse failures `pass` and continue. -/
def findRated : List PyLine → ℚ
  | [] => 0
  | .rated (some v) :: _ => v
  | .rated none :: rest => findRated rest
  | .other :: rest => findRated rest

/-- `run_static_analysis` (github.py lines 68-122).  The two subprocess
invocations are oracle arguments; `pylintRun` receives the sampled file
list actually passed on the command line. -/
def run_static_analysis (t : FsTree) (radon : RadonOutcome)
    (pylintRun : List (List String × String) → PyOutcome) :
    RadonRes × ℚ × List Issue :=
  let rad : RadonRes × List Issue :=
    match radon with
    | .exc m => (.errRes m, [])
    | .ran rc j =>
      if rc = 0 then
        match j with
        | .ok data => (.okRes data, radonIssues data)
        | .error m => (.errRes m, [])
      else (.emptyRes, [])
  let py_files := pyFilesOf t
  let score : ℚ :=
    if py_files.isEmpty then 0
    else
      let sample := if 3 < py_files.length then py_files.take 3 else py_files
      match pylintRun sample with
      | .exc _ => 0
      | .ran rc lines =>
        if rc = 0 ∨ rc = 4 ∨ rc = 8 ∨ rc = 16 ∨ rc = 32 then findRated lines else 0
  (rad.1, score, rad.2)

/-! ## Plagiarism check (`run_plagiarism_check`, lines 127-152) -/

/-- One line of jscpd stdout for the text fallback: `totalLine v` is a
line containing both `"Total"` and `"%"` whose token parses to `v`
(`none` when `float(...)` raises). -/
inductive JscpdLine where
  | totalLine (v : Option ℚ)
  | other
deriving DecidableEq

/-- Parsed shape of jscpd stdout: `json.loads` succeeded (with the
`statistics.total.percentage` chain yielding `percentage`, `none` when a
key is missing), or raised `JSONDecodeError` leaving the raw lines. -/
inductive JscpdStdout where
  | jsonOk (percentage : Option ℚ)
  | jsonErr (lines : List JscpdLine)

/-- Outcome of the `npx jscpd` subprocess call. -/
inductive JscpdOutcome where
  | exc (msg : String)
  | ran (returncode : Int) (stdout : JscpdStdout)

/-- The text-fallback scan of lines 142-148: first parsed `"Total ... %"`
line wins (`break`); parse failures `pass` and continue. -/
def scanTotal : List JscpdLine → ℚ
  | [] => 0
  | .totalLine (some v) :: _ => v
  | .totalLine none :: rest => scanTotal rest
  | .other :: rest => scanTotal rest

/-- `run_plagiarism_check` (github.py lines 127-152): everything is
guarded by `returncode == 0`; any caught exception yields 0.0. -/
def run_plagiarism_check : JscpdOutcome → ℚ
  | .exc _ => 0
  | .ran rc out =>
    if rc = 0 then
      match out with
      | .jsonOk p => p.getD 0
      | .jsonErr lines => scanTotal lines
    else 0

/-! ## LLM evaluation (`evaluate_with_llm`, lines 193-291) -/

/-- The JSON extraction of lines 254-260 applied to `resp.content`:
strip, then unwrap a ```` ```json ```` fence, else a bare ```` ``` ````
fence, via Python `split` indexing. -/
def extractJson (content : List Char) : List Char :=
  let t := ltrim content
  if lcontains "```json".data t then
    ltrim (((lsplit "```".data ((lsplit "```json".data t).getD 1 [])).getD 0 []))
  else if lcontains "```".data t then
    ltrim (((lsplit "```".data ((lsplit "```".data t).getD 1 [])).getD 0 []))
  else t

/-- Result of `json.loads` + the four `data.get(...)` reads on one chunk
response (`okJ` fields are `none` when the key is absent), or the
`JSONDecodeError` message. -/
inductive JParseRes where
  | okJ (logic relevance style : Option ℚ) (fb : Option String)
  | errJ (msg : String)

/-- One raw LLM exchange: the response text, or an exception raised by
the invocation (caught by the generic `except Exception` clause). -/
inductive LLMRaw where
  | content (text : List Char)
  | raised (msg : String)

/-- Availability of the LLM path: the three early-return conditions, or a
ready client modelled by its response oracle. -/
inductive LLMEnv where
  | noLangchain
  | noApiKey
  | initFail (msg : String)
  | ready (respond : List Char → LLMRaw)

/-- Evaluation of one submitted snippet (the loop body, lines 249-279):
scores and feedback appended for this chunk. -/
def chunkEval (jparse : List Char → JParseRes) (respond : List Char → LLMRaw)
    (snippet : List Char) : ℚ × ℚ × ℚ × String :=
  match respond snippet with
  | .raised m => (50, 50, 50, "Evaluation error: " ++ m)
  | .content txt =>
    match jparse (extractJson txt) with
    | .errJ m => (50, 50, 50, "LLM response parsing failed: " ++ m)
    | .okJ l r s f =>
      (l.getD 50, r.getD 50, s.getD 50, f.getD "No specific feedback provided")

/-- `evaluate_with_llm` (github.py lines 193-291): early degradation
returns, then at most the first 5 chunks, each truncated to 3000
characters, evaluated and averaged per axis. -/
def evaluate_with_llm (jparse : List Char → JParseRes) (env : LLMEnv)
    (_desc : String) (code_chunks : List (List Char)) : ℚ × ℚ × ℚ × List String :=
  match env with
  | .noLangchain => (50, 50, 50, ["LLM evaluation unavailable - LangChain not installed"])
  | .noApiKey => (50, 50, 50, ["LLM evaluation skipped - OPENAI_API_KEY not set"])
  | .initFail m => (50, 50, 50, ["LLM initialization failed: " ++ m])
  | .ready respond =>
    let outs := (code_chunks.take 5).map fun c => chunkEval jparse respond (c.take 3000)
    match outs with
    | [] => (50, 50, 50, ["No code chunks evaluated"])
    | _ :: _ =>
      ((outs.map fun o => o.1).sum / (outs.length : ℚ),
       (outs.map fun o => o.2.1).sum / (outs.length : ℚ),
       (outs.map fun o => o.2.2.1).sum / (outs.length : ℚ),
       outs.map fun o => o.2.2.2)

/-! ## Feedback synthesis (`generate_feedback`, lines 312-364) -/

/-- The fields of `analysis_results` read by `generate_feedback`. -/
structure AnalysisResults where
  pylint_score : ℚ
  plagiarism_percent : ℚ
  logic : ℚ
  style : ℚ
  structure_analysis : StructureReport
  complexity_issues : List Issue
  final_score : ℚ

/-- The `feedback` dictionary. -/
structure Feedback where
  strengths : List String
  weaknesses : List String
  recommendations : List String
  overall_impression : String
deriving DecidableEq

/-- `generate_feedback` (github.py lines 312-364): threshold-driven
strengths, weaknesses and recommendations (in append order) and the
4-bucket overall impression. -/
def generate_feedback (a : AnalysisResults) : Feedback :=
  { strengths :=
      (if 7 ≤ a.pylint_score then ["Good code quality with high pylint score"] else []) ++
      (if a.plagiarism_percent < 5 then
        ["Low plagiarism percentage indicates original work"] else []) ++
      (if 70 ≤ a.logic then ["Strong logical implementation"] else []) ++
      (if a.structure_analysis.has_readme then ["Well-documented with README"] else []) ++
      (if a.structure_analysis.has_requirements then ["Good dependency management"] else [])
    weaknesses :=
      (if ¬ a.complexity_issues.isEmpty then
        ["High complexity in " ++ toString a.complexity_issues.length ++ " functions"] else []) ++
      (if a.pylint_score < 5 then ["Low code quality score needs improvement"] else []) ++
      (if ¬ a.structure_analysis.has_tests then ["No test files detected"] else []) ++
      (if a.style < 60 then ["Code style and readability need improvement"] else [])
    recommendations :=
      (if ¬ a.complexity_issues.isEmpty then
        ["Refactor complex functions to improve maintainability"] else []) ++
      (if ¬ a.structure_analysis.has_tests then
        ["Add unit tests to ensure code reliability"] else []) ++
      (if a.style < 70 then ["Improve code formatting and add comments"] else []) ++
      (if ¬ a.structure_analysis.has_github_actions then
        ["Consider adding CI/CD with GitHub Actions"] else [])
    overall_impression :=
      if 85 ≤ a.final_score then "Excellent project with strong implementation"
      else if 70 ≤ a.final_score then "Good project with some areas for improvement"
      else if 50 ≤ a.final_score then "Average project needing significant improvements"
      else "Project requires major refactoring and improvements" }

/-! ## Helper lemmas: rounding and the structure-score bound -/

theorem round2_nonneg {x : ℚ} (h : 0 ≤ x) : 0 ≤ round2 x := by
  unfold round2
  have hm : round (0 : ℚ) ≤ round (x * 100) := by
    rw [round_eq, round_eq]; exact Int.floor_le_floor (by linarith)
  have h0 : round (0 : ℚ) = 0 := by simp
  rw [h0] at hm
  have : (0 : ℚ) ≤ ((round (x * 100) : ℤ) : ℚ) := by exact_mod_cast hm
  positivity

theorem round2_le_100 {x : ℚ} (h : x ≤ 100) : round2 x ≤ 100 := by
  unfold round2
  have hm : round (x * 100) ≤ round ((10000 : ℚ)) := by
    rw [round_eq, round_eq]; exact Int.floor_le_floor (by linarith)
  have h0 : round ((10000 : ℚ)) = 10000 := by
    simp
  rw [h0] at hm
  have : ((round (x * 100) : ℤ) : ℚ) ≤ 10000 := by exact_mod_cast hm
  linarith

theorem structure_score_le_100 (r : StructureReport) : structure_score r ≤ 100 := by
  unfold structure_score
  have h1 : (if r.has_readme then (20 : ℚ) else 0) ≤ 20 := by split <;> norm_num
  have h2 : (if r.has_requirements then (20 : ℚ) else 0) ≤ 20 := by split <;> norm_num
  have h3 : (if r.has_tests then (15 : ℚ) else 0) ≤ 15 := by split <;> norm_num
  have h4 : (if r.has_dockerfile then (15 : ℚ) else 0) ≤ 15 := by split <;> norm_num
  have h5 : (if r.has_github_actions then (10 : ℚ) else 0) ≤ 10 := by split <;> norm_num
  have hmin : min ((r.file_count : ℚ) / 10) 20 ≤ 20 := min_le_right _ _
  linarith

/-! ## Claim C1 -/

/-- C1: `compute_final_score` returns
`round((100 - duplication)*0.30 + logic*0.25 + relevance*0.20 + style*0.10
+ (lint_score*10)*0.10 + structure_score*0.05, 2)` for all inputs, and on
duplication=10, logic=80, relevance=70, style=60, lint_score=8,
structure_score=75 it returns 78.75. -/
theorem C1_final_score_formula :
    (∀ d l r s q st : ℚ, compute_final_score d l r s q st =
      round2 ((100 - d) * 0.30 + l * 0.25 + r * 0.20 + s * 0.10 +
        (q * 10) * 0.10 + st * 0.05)) ∧
    compute_final_score 10 80 70 60 8 75 = 78.75 := by
  constructor
  · intro d l r s q st
    show round2 _ = round2 _
    congr 1
    norm_num
  · norm_num [compute_final_score, round2, round_eq]

/-! ## Claim C2 -/

/-- C2 (counterexample): the final score is NOT in [0, 100] for every
input: since the LLM axis scores enter the sum without range validation,
logic = 400 (with everything else in range) already yields 152.5. -/
theorem C2_counterexample_final_score_above_100 :
    ¬ ∀ d l r s q st : ℚ,
      0 ≤ compute_final_score d l r s q st ∧ compute_final_score d l r s q st ≤ 100 := by
  intro h
  have h2 := (h 0 400 50 50 5 50).2
  have hval : compute_final_score 0 400 50 50 5 50 = 152.5 := by
    norm_num [compute_final_score, round2, round_eq]
  rw [hval] at h2
  norm_num at h2

/-- C2 (amended): whenever every sub-score is in its documented range
(duplication, logic, relevance, style, structure score in [0,100]; lint
score in [0,10]), the final score lies in [0, 100]; without range
validation of the LLM axis scores the bound can be exceeded (see the
counterexample). -/
theorem C2_final_score_range (d l r s q st : ℚ)
    (hd0 : 0 ≤ d) (hd1 : d ≤ 100) (hl0 : 0 ≤ l) (hl1 : l ≤ 100)
    (hr0 : 0 ≤ r) (hr1 : r ≤ 100) (hs0 : 0 ≤ s) (hs1 : s ≤ 100)
    (hq0 : 0 ≤ q) (hq1 : q ≤ 10) (ht0 : 0 ≤ st) (ht1 : st ≤ 100) :
    0 ≤ compute_final_score d l r s q st ∧ compute_final_score d l r s q st ≤ 100 := by
  constructor
  · exact round2_nonneg (by linarith)
  · exact round2_le_100 (by linarith)

/-- C2 (witness): the range theorem applied at the in-range input
(10, 80, 70, 60, 8, 75). -/
theorem C2_final_score_range_witness :
    0 ≤ compute_final_score 10 80 70 60 8 75 ∧ compute_final_score 10 80 70 60 8 75 ≤ 100 :=
  C2_final_score_range 10 80 70 60 8 75 (by norm_num) (by norm_num) (by norm_num)
    (by norm_num) (by norm_num) (by norm_num) (by norm_num) (by norm_num)
    (by norm_num) (by norm_num) (by norm_num) (by norm_num)

/-! ## Claim C8 -/

/-- C8 (counterexample): there is NO structure report whose structure
sub-score exceeds 100: the flag bonuses sum to at most 80 and the
file-count bonus is capped at 20 by its own `min` clause. -/
theorem C8_counterexample_no_structure_score_above_100 :
    ¬ ∃ r : StructureReport, 100 < structure_score r := by
  rintro ⟨r, h⟩
  exact absurd h (not_lt.2 (structure_score_le_100 r))

/-- C8 (amended): the structure sub-score is bounded by 100 for every
report — not by an explicit clamp but because the five presence bonuses
total 80 and `min(file_count/10, 20)` caps the file bonus; the bound 100
is attained (all flags set, 200 files). The 0.05 weight then attenuates
it in the final score. -/
theorem C8_structure_score_bounded :
    (∀ r : StructureReport, structure_score r ≤ 100) ∧
    structure_score ⟨true, true, true, true, true, 200, 0⟩ = 100 :=
  ⟨structure_score_le_100, by norm_num [structure_score]⟩

/-! ## Claim C3 -/

/-- C3: under forced tool-invocation failure each component returns its
neutral default: `run_static_analysis` with a radon exception (or a radon
JSON decode failure and a pylint bad-exit run) yields lint 0.0 and no
complexity issues; `run_plagiarism_check` with an exception (or an
unparseable zero-exit stdout) yields 0.0; `evaluate_with_llm` with a
missing library or missing credential yields exactly (50.0, 50.0, 50.0)
and a one-element feedback list. -/
theorem C3_degradation_defaults :
    ∀ (t : FsTree) (m1 m2 m3 m4 : String) (jp : List Char → JParseRes)
      (d : String) (chunks : List (List Char)),
      run_static_analysis t (.exc m1) (fun _ => .exc m2) = (.errRes m1, 0, []) ∧
      run_static_analysis t (.ran 0 (.error m4)) (fun _ => .ran 2 [.rated (some 9)]) =
        (.errRes m4, 0, []) ∧
      run_plagiarism_check (.exc m3) = 0 ∧
      run_plagiarism_check (.ran 0 (.jsonErr [.other])) = 0 ∧
      evaluate_with_llm jp .noLangchain d chunks =
        (50, 50, 50, ["LLM evaluation unavailable - LangChain not installed"]) ∧
      evaluate_with_llm jp .noApiKey d chunks =
        (50, 50, 50, ["LLM evaluation skipped - OPENAI_API_KEY not set"]) := by
  intro t m1 m2 m3 m4 jp d chunks
  refine ⟨?_, ?_, rfl, rfl, rfl, rfl⟩
  · unfold run_static_analysis
    by_cases h : (pyFilesOf t).isEmpty <;> simp [h]
  · unfold run_static_analysis
    by_cases h : (pyFilesOf t).isEmpty <;> simp [h]

/-! ## Claim C4 -/

theorem chunk_slices_flatten (m : ℕ) : ∀ ls : List String,
    m = (ls.length + 999) / 1000 →
    ((List.range m).map fun k => (ls.drop (1000 * k)).take 1000).flatten = ls := by
  induction m with
  | zero =>
    intro ls h
    have hl : ls.length = 0 := by omega
    have : ls = [] := List.length_eq_zero.mp hl
    subst this
    simp
  | succ n ih =>
    intro ls h
    rw [List.range_succ_eq_map]
    simp only [List.map_cons, List.map_map, List.flatten_cons]
    have h0 : (ls.drop (1000 * 0)).take 1000 = ls.take 1000 := by norm_num
    rw [h0]
    have hrw : ((List.range n).map ((fun k => (ls.drop (1000 * k)).take 1000) ∘ Nat.succ)) =
        ((List.range n).map fun k => ((ls.drop 1000).drop (1000 * k)).take 1000) := by
      apply List.map_congr_left
      intro k _
      simp only [Function.comp_apply, List.drop_drop]
      congr 2
      omega
    rw [hrw, ih (ls.drop 1000) (by rw [List.length_drop]; omega)]
    exact List.take_append_drop 1000 ls

/-- C4: for a non-empty collected file, `get_code_files` splits the line
sequence into consecutive windows of at most 1000 lines; window `k` is
labeled with the file name and the 1-based inclusive range
`(1000k+1, min(1000k+1000, total))`; a file of at most 1000 lines yields
exactly one chunk; and concatenating all chunk bodies (the text minus the
injected header line) reconstructs the original line sequence. -/
theorem C4_chunking (f : String) (lines : List String) (h : lines ≠ []) :
    ((chunkFile f lines).map Chunk.body).flatten = lines ∧
    (∀ c ∈ chunkFile f lines, c.body.length ≤ 1000 ∧ c.body ≠ []) ∧
    (∀ k (hk : k < (chunkFile f lines).length),
      (chunkFile f lines).get ⟨k, hk⟩ =
        ⟨f, 1000 * k + 1, min (1000 * k + 1000) lines.length,
          (lines.drop (1000 * k)).take 1000⟩) ∧
    (lines.length ≤ 1000 → chunkFile f lines = [⟨f, 1, lines.length, lines⟩]) := by
  refine ⟨?_, ?_, ?_, ?_⟩
  · unfold chunkFile
    rw [List.map_map]
    exact chunk_slices_flatten _ lines rfl
  · intro c hc
    unfold chunkFile at hc
    rw [List.mem_map] at hc
    obtain ⟨k, hk, rfl⟩ := hc
    rw [List.mem_range] at hk
    have hlt : 1000 * k < lines.length := by omega
    constructor
    · simp [List.length_take]
    · have : ((lines.drop (1000 * k)).take 1000).length = min 1000 (lines.length - 1000 * k) := by
        simp [List.length_take, List.length_drop]
      intro hnil
      dsimp only at hnil
      rw [hnil] at this
      simp at this
      omega
  · intro k hk
    unfold chunkFile at hk ⊢
    rw [List.length_map, List.length_range] at hk
    simp [List.get_eq_getElem, List.getElem_map, List.getElem_range]
  · intro hle
    have hm : (lines.length + 999) / 1000 = 1 := by
      have : lines.length ≠ 0 := fun h0 => h (List.length_eq_zero.mp h0)
      omega
    unfold chunkFile
    rw [hm]
    have h1 : min (1000 * 0 + 1000) lines.length = lines.length := by omega
    have h2 : (lines.drop (1000 * 0)).take 1000 = lines := by
      rw [Nat.mul_zero, List.drop_zero]
      exact List.take_of_length_le hle
    simp [List.range_succ, h1, h2]
    exact hle

/-- C4 (witness): the chunking theorem applied to the two-line file
`a.py`, which yields the single chunk `(a.py, 1, 2, [x, y])`. -/
theorem C4_chunking_witness :
    (["x", "y"] : List String) ≠ [] ∧
    (((chunkFile "a.py" ["x", "y"]).map Chunk.body).flatten = ["x", "y"] ∧
    (∀ c ∈ chunkFile "a.py" ["x", "y"], c.body.length ≤ 1000 ∧ c.body ≠ []) ∧
    (∀ k (hk : k < (chunkFile "a.py" ["x", "y"]).length),
      (chunkFile "a.py" ["x", "y"]).get ⟨k, hk⟩ =
        ⟨"a.py", 1000 * k + 1, min (1000 * k + 1000) (["x", "y"] : List String).length,
          ((["x", "y"] : List String).drop (1000 * k)).take 1000⟩) ∧
    ((["x", "y"] : List String).length ≤ 1000 →
      chunkFile "a.py" ["x", "y"] = [⟨"a.py", 1, 2, ["x", "y"]⟩])) := by
  refine ⟨by decide, ?_⟩
  have h := C4_chunking "a.py" ["x", "y"] (by decide)
  exact ⟨h.1, h.2.1, h.2.2.1, fun hl => h.2.2.2 hl⟩

/-! ## Claim C6 -/

/-- C6: with a ready LLM client, `evaluate_with_llm` depends only on the
first 5 chunks (so on 8 chunks only the first 5 are scored and the rest
are never submitted), returns the all-50 default with an explanatory note
on an empty chunk list, and otherwise submits each of the first 5 chunks
truncated to 3000 characters and returns the per-axis arithmetic mean
over the evaluated chunks. -/
theorem C6_llm_cap_truncate_mean :
    ∀ (jp : List Char → JParseRes) (respond : List Char → LLMRaw) (d : String)
      (chunks : List (List Char)),
      evaluate_with_llm jp (.ready respond) d chunks =
        evaluate_with_llm jp (.ready respond) d (chunks.take 5) ∧
      evaluate_with_llm jp (.ready respond) d [] =
        (50, 50, 50, ["No code chunks evaluated"]) ∧
      (chunks ≠ [] →
        evaluate_with_llm jp (.ready respond) d chunks =
          (let outs := (chunks.take 5).map fun c => chunkEval jp respond (c.take 3000)
           ((outs.map fun o => o.1).sum / (outs.length : ℚ),
            (outs.map fun o => o.2.1).sum / (outs.length : ℚ),
            (outs.map fun o => o.2.2.1).sum / (outs.length : ℚ),
            outs.map fun o => o.2.2.2))) := by
  intro jp respond d chunks
  refine ⟨?_, rfl, ?_⟩
  · unfold evaluate_with_llm
    rw [List.take_take]
    norm_num
  · intro hne
    obtain ⟨c, cs, rfl⟩ : ∃ c cs, chunks = c :: cs := by
      cases chunks with
      | nil => exact absurd rfl hne
      | cons c cs => exact ⟨c, cs, rfl⟩
    rfl

/-- C6 (witness): a one-chunk evaluation with a parsed (80, 70, 60)
response averages to exactly (80, 70, 60) and the parsed default
feedback entry. -/
theorem C6_llm_witness :
    evaluate_with_llm (fun _ => .okJ (some 80) (some 70) (some 60) none)
        (.ready fun _ => .content []) "" [['a']] =
      (80, 70, 60, ["No specific feedback provided"]) := by
  have h := (C6_llm_cap_truncate_mean (fun _ => .okJ (some 80) (some 70) (some 60) none)
    (fun _ => .content []) "" [['a']]).2.2 (by decide)
  rw [h]
  norm_num [chunkEval, extractJson, ltrim, lcontains, lstarts]

/-! ## Claim C10 -/

/-- C10: `run_plagiarism_check` returns 0.0 whenever the jscpd process
exits non-zero, regardless of what its stdout contains: both the JSON
extraction and the text fallback are reached only under exit code 0. -/
theorem C10_nonzero_exit_returns_zero (rc : Int) (out : JscpdStdout) (h : rc ≠ 0) :
    run_plagiarism_check (.ran rc out) = 0 := by
  unfold run_plagiarism_check
  simp [h]

/-- C10 (witness): exit code 1 with a perfectly parseable statistics
object (percentage 42) still yields 0. -/
theorem C10_witness :
    (1 : Int) ≠ 0 ∧ run_plagiarism_check (.ran 1 (.jsonOk (some 42))) = 0 :=
  ⟨by decide, C10_nonzero_exit_returns_zero 1 (.jsonOk (some 42)) (by decide)⟩

/-! ## Claim C5: hidden-directory exclusion -/

theorem filterF_pruneF : ∀ ds : FsForest, filterF (pruneF ds) = pruneF ds
  | .fnil => rfl
  | .fcons d t rest => by
    by_cases h : dotSeg d
    · simp [pruneF, h, filterF_pruneF rest]
    · simp [pruneF, h, filterF, filterF_pruneF rest]

theorem flen_pruneF : ∀ ds : FsForest, flen (pruneF ds) = flen (filterF ds)
  | .fnil => rfl
  | .fcons d t rest => by
    by_cases h : dotSeg d <;> simp [pruneF, filterF, h, flen, flen_pruneF rest]

mutual
theorem walkPruned_prune : ∀ (root : List String) (t : FsTree),
    walkPruned root (pruneHidden t) = walkPruned root t
  | root, .node ds fs => by
    unfold pruneHidden walkPruned
    rw [filterF_pruneF, flen_pruneF, walkPrunedF_prune root ds]
theorem walkPrunedF_prune : ∀ (root : List String) (ds : FsForest),
    walkPrunedF root (pruneF ds) = walkPrunedF root ds
  | _, .fnil => rfl
  | root, .fcons d t rest => by
    by_cases h : dotSeg d
    · simp [pruneF, walkPrunedF, h, walkPrunedF_prune root rest]
    · simp [pruneF, walkPrunedF, h, walkPrunedF_prune root rest,
        walkPruned_prune (root ++ [d]) t]
end

theorem hiddenRoot_cons (d : String) (root : List String) :
    hiddenRoot (d :: root) = (dotSeg d || hiddenRoot root) := by
  simp [hiddenRoot]

theorem gcf_shift (d : String) (h : dotSeg d = false)
    (l : List (List String × List (String × List String))) :
    (((l.map fun p => (d :: p.1, p.2)).map entryChunks)).flatten =
      (l.map entryChunks).flatten := by
  rw [List.map_map]
  congr 1
  apply List.map_congr_left
  intro p _
  simp only [Function.comp_apply, entryChunks, hiddenRoot_cons, h, Bool.false_or]

theorem gcf_hidden (d : String) (h : dotSeg d = true)
    (l : List (List String × List (String × List String))) :
    (((l.map fun p => (d :: p.1, p.2)).map entryChunks)).flatten = [] := by
  induction l with
  | nil => rfl
  | cons p rest ih => simp [entryChunks, hiddenRoot_cons, h, ih]

mutual
theorem gcf_tree : ∀ t : FsTree,
    ((walkAll (pruneHidden t)).map entryChunks).flatten =
      ((walkAll t).map entryChunks).flatten
  | .node ds fs => by
    unfold pruneHidden walkAll
    simp only [List.map_cons, List.flatten_cons]
    rw [gcf_forest ds]
theorem gcf_forest : ∀ ds : FsForest,
    ((walkAllF (pruneF ds)).map entryChunks).flatten =
      ((walkAllF ds).map entryChunks).flatten
  | .fnil => rfl
  | .fcons d t rest => by
    by_cases h : dotSeg d
    · simp only [pruneF, h, if_true, walkAllF, List.map_append, List.flatten_append]
      rw [gcf_hidden d h (walkAll t), gcf_forest rest]
      simp
    · have h' : dotSeg d = false := Bool.eq_false_iff.mpr h
      simp only [pruneF, h', if_false, Bool.false_eq_true, walkAllF,
        List.map_append, List.flatten_append]
      rw [gcf_shift d h' (walkAll (pruneHidden t)), gcf_shift d h' (walkAll t),
        gcf_tree t, gcf_forest rest]
end

/-- C5 (counterexample): a file whose own name starts with a dot, sitting
in a non-hidden directory, has a dot-prefixed path segment, yet
`get_code_files` still produces its chunk (only the directory part of the
root is tested against dot-segments) and `analyze_repo_structure` still
counts it in `file_count` (only directories are pruned). -/
theorem C5_counterexample_dot_named_file :
    get_code_files (.node .fnil [(".foo.py", ["x"])]) = [⟨".foo.py", 1, 1, ["x"]⟩] ∧
    (analyze_repo_structure (.node .fnil [(".foo.py", ["x"])])).file_count = 1 := by
  constructor <;> decide

/-- C5 (amended): every file with a dot-prefixed *directory* segment
contributes nothing: removing every dot-prefixed directory together with
its whole subtree changes neither the chunk list produced by
`get_code_files` nor any field of the `analyze_repo_structure` report
(counts and presence flags alike). A file whose own *name* starts with a
dot is, however, still chunked and still counted. -/
theorem C5_hidden_dir_prune_invariance : ∀ t : FsTree,
    get_code_files t = get_code_files (pruneHidden t) ∧
    analyze_repo_structure t = analyze_repo_structure (pruneHidden t) := by
  intro t
  constructor
  · unfold get_code_files
    exact (gcf_tree t).symm
  · unfold analyze_repo_structure
    rw [walkPruned_prune]

/-! ## Claim C9: the CI flag under pruning -/


theorem lstarts_subset : ∀ pat s : List Char, lstarts pat s = true → ∀ c ∈ pat, c ∈ s
  | [], _, _ => by simp
  | p :: ps, [], h => by simp [lstarts] at h
  | p :: ps, b :: bs, h => by
    simp only [lstarts, Bool.and_eq_true, beq_iff_eq] at h
    intro c hc
    rcases List.mem_cons.mp hc with rfl | hc'
    · rw [h.1]; exact List.mem_cons_self _ _
    · exact List.mem_cons_of_mem _ (lstarts_subset ps bs h.2 c hc')

theorem lcontains_subset : ∀ (pat s : List Char), lcontains pat s = true → ∀ c ∈ pat, c ∈ s
  | pat, [], h => by
    intro c hc
    simp only [lcontains] at h
    exact lstarts_subset pat [] h c hc
  | pat, b :: bs, h => by
    intro c hc
    simp only [lcontains, Bool.or_eq_true] at h
    rcases h with h | h
    · exact lstarts_subset pat (b :: bs) h c hc
    · exact List.mem_cons_of_mem _ (lcontains_subset pat bs h c hc)

theorem pathStr_no_dot : ∀ segs : List (List Char),
    (∀ seg ∈ segs, '.' ∉ seg) → '.' ∉ pathStr segs
  | [] => by simp [pathStr]
  | [s] => fun h => by
    simp only [pathStr]
    exact h s (List.mem_singleton_self s)
  | s :: t :: rest => fun h => by
    simp only [pathStr, List.mem_append, List.mem_cons]
    push_neg
    refine ⟨h s (List.mem_cons_self _ _), by decide, ?_⟩
    exact pathStr_no_dot (t :: rest) fun seg hseg => h seg (List.mem_cons_of_mem _ hseg)

theorem ci_check_false (root : List String)
    (hclean : ∀ seg ∈ root, ∀ c ∈ seg.data, c ≠ '.') :
    lcontains ".github/workflows".data (pathStr (root.map String.data)) = false := by
  cases hc : lcontains ".github/workflows".data (pathStr (root.map String.data)) with
  | false => rfl
  | true =>
    exfalso
    have hdot : '.' ∈ pathStr (root.map String.data) :=
      lcontains_subset _ _ hc '.' (by decide)
    have : '.' ∉ pathStr (root.map String.data) := by
      apply pathStr_no_dot
      intro seg hseg
      rw [List.mem_map] at hseg
      obtain ⟨x, hx, rfl⟩ := hseg
      intro hmem
      exact hclean x hx '.' hmem rfl
    exact this hdot

theorem fileStep_actions (root : List String) (r : StructureReport) (fname : String)
    (h : lcontains ".github/workflows".data (pathStr (root.map String.data)) = false) :
    (fileStep root r fname).has_github_actions = r.has_github_actions := by
  unfold fileStep
  dsimp only
  repeat' split
  all_goals simp_all

theorem foldl_fileStep_actions (root : List String)
    (h : lcontains ".github/workflows".data (pathStr (root.map String.data)) = false) :
    ∀ (files : List String) (r : StructureReport),
      (files.foldl (fileStep root) r).has_github_actions = r.has_github_actions
  | [], r => rfl
  | f :: fs, r => by
    rw [List.foldl_cons, foldl_fileStep_actions root h fs _, fileStep_actions root r f h]

theorem foldl_nodeStep_actions :
    ∀ (entries : List (List String × Nat × List String)) (r : StructureReport),
      (∀ e ∈ entries, ∀ seg ∈ e.1, ∀ c ∈ seg.data, c ≠ '.') →
      (entries.foldl nodeStep r).has_github_actions = r.has_github_actions
  | [], _, _ => rfl
  | e :: es, r, h => by
    rw [List.foldl_cons,
      foldl_nodeStep_actions es _ fun x hx => h x (List.mem_cons_of_mem _ hx)]
    unfold nodeStep
    rw [foldl_fileStep_actions e.1 (ci_check_false e.1 (h e (List.mem_cons_self _ _))) e.2.2 _]

mutual
theorem clean_roots_tree : ∀ (root : List String) (t : FsTree),
    treeCleanDirs t = true → (∀ seg ∈ root, ∀ c ∈ seg.data, c ≠ '.') →
    ∀ e ∈ walkPruned root t, ∀ seg ∈ e.1, ∀ c ∈ seg.data, c ≠ '.'
  | root, .node ds fs, ht, hr => by
    intro e he
    unfold walkPruned at he
    rcases List.mem_cons.mp he with rfl | he'
    · exact hr
    · exact clean_roots_forest root ds (by simpa [treeCleanDirs] using ht) hr e he'
theorem clean_roots_forest : ∀ (root : List String) (ds : FsForest),
    forestCleanDirs ds = true → (∀ seg ∈ root, ∀ c ∈ seg.data, c ≠ '.') →
    ∀ e ∈ walkPrunedF root ds, ∀ seg ∈ e.1, ∀ c ∈ seg.data, c ≠ '.'
  | root, .fnil, _, _ => by intro e he; simp [walkPrunedF] at he
  | root, .fcons d t rest, hf, hr => by
    intro e he
    simp only [forestCleanDirs, Bool.and_eq_true] at hf
    unfold walkPrunedF at he
    rw [List.mem_append] at he
    rcases he with he | he
    · by_cases hd : dotSeg d
      · rw [if_pos hd] at he
        exact absurd he (List.not_mem_nil e)
      · rw [if_neg hd] at he
        refine clean_roots_tree (root ++ [d]) t hf.1.2 ?_ e he
        intro seg hseg
        rcases List.mem_append.mp hseg with hseg | hseg
        · exact hr seg hseg
        · rw [List.mem_singleton] at hseg
          subst hseg
          intro c hc hcdot
          have h2 := hf.1.1
          rw [Bool.not_eq_true', List.any_eq_false] at h2
          have h3 := h2 c hc
          simp [hcdot] at h3
    · exact clean_roots_forest root rest hf.2 hr e he
end

theorem actions_false_of_cleanDirs (t : FsTree) (hclean : treeCleanDirs t = true) :
    (analyze_repo_structure t).has_github_actions = false := by
  unfold analyze_repo_structure
  rw [foldl_nodeStep_actions (walkPruned [] t) _
    (clean_roots_tree [] t hclean (by simp))]

/-- C9 (amended): `analyze_repo_structure` returns
`has_github_actions = false` for every tree whose non-pruned directory
names are dot-free (`treeCleanDirs (pruneHidden t)`), and
`generate_feedback` then appends the CI/CD recommendation to the
feedback record. In particular a repository whose only dotted
directories are hidden ones — including a genuine `.github/workflows`
directory, which is pruned before descent (see the witness) — always
has the flag false; the claim's "for every directory tree" fails only
for trees with a surviving dotted directory name such as the
counterexample's `a.github/workflows`. -/
theorem C9_no_github_actions_flag :
    ∀ (t : FsTree) (ar : AnalysisResults),
      treeCleanDirs (pruneHidden t) = true →
      ar.structure_analysis = analyze_repo_structure t →
      (analyze_repo_structure t).has_github_actions = false ∧
      "Consider adding CI/CD with GitHub Actions" ∈ (generate_feedback ar).recommendations := by
  intro t ar hclean har
  have hinv : analyze_repo_structure t = analyze_repo_structure (pruneHidden t) := by
    unfold analyze_repo_structure
    rw [walkPruned_prune]
  have hflag : (analyze_repo_structure t).has_github_actions = false := by
    rw [hinv]
    exact actions_false_of_cleanDirs (pruneHidden t) hclean
  refine ⟨hflag, ?_⟩
  have hfa : ar.structure_analysis.has_github_actions = false := by rw [har]; exact hflag
  unfold generate_feedback
  simp [hfa]

/-- C9 (witness): the amended theorem applied to a repository that
contains a genuine `.github/workflows` directory (plus one source file):
the hidden directory is pruned, the pruned tree has dot-free directory
names, the flag is false, and the CI/CD recommendation is emitted. -/
theorem C9_no_github_actions_flag_witness :
    treeCleanDirs (pruneHidden (.node (.fcons ".github"
        (.node (.fcons "workflows" (.node .fnil [("ci.yml", ["x"])]) .fnil) []) .fnil)
        [("x.py", ["a"])])) = true ∧
    ((analyze_repo_structure (.node (.fcons ".github"
        (.node (.fcons "workflows" (.node .fnil [("ci.yml", ["x"])]) .fnil) []) .fnil)
        [("x.py", ["a"])])).has_github_actions = false ∧
     "Consider adding CI/CD with GitHub Actions" ∈
       (generate_feedback ⟨0, 0, 0, 0,
         analyze_repo_structure (.node (.fcons ".github"
           (.node (.fcons "workflows" (.node .fnil [("ci.yml", ["x"])]) .fnil) []) .fnil)
           [("x.py", ["a"])]), [], 0⟩).recommendations) :=
  ⟨by decide, C9_no_github_actions_flag _ _ (by decide) rfl⟩

/-- C9 (counterexample): `has_github_actions` is NOT false for every
tree: a non-hidden directory `a.github` with subdirectory `workflows`
survives pruning, and the walk root string `a.github/workflows` contains
the `".github/workflows"` marker, so the flag becomes true. -/
theorem C9_counterexample_agithub_dir :
    (analyze_repo_structure
      (.node (.fcons "a.github"
        (.node (.fcons "workflows" (.node .fnil [("x.py", ["a"])]) .fnil) []) .fnil)
        [])).has_github_actions = true := by
  decide

/-! ## Claim C7: fenced versus bare LLM-response extraction -/

theorem lstarts_length : ∀ pat s : List Char, lstarts pat s = true → pat.length ≤ s.length
  | [], _, _ => by simp
  | p :: ps, [], h => by simp [lstarts] at h
  | p :: ps, b :: bs, h => by
    simp only [lstarts, Bool.and_eq_true] at h
    simpa using lstarts_length ps bs h.2

theorem lstarts_iff (pat s : List Char) :
    lstarts pat s = true ↔ ∃ r, s = pat ++ r := by
  induction pat generalizing s with
  | nil => simp [lstarts]
  | cons p ps ih =>
    cases s with
    | nil => simp [lstarts]
    | cons b bs =>
      simp only [lstarts, Bool.and_eq_true, beq_iff_eq, ih, List.cons_append]
      constructor
      · rintro ⟨rfl, r, rfl⟩; exact ⟨r, rfl⟩
      · rintro ⟨r, hr⟩
        injection hr with h1 h2
        exact ⟨h1.symm, r, h2⟩

theorem lcontains_iff (pat s : List Char) :
    lcontains pat s = true ↔ ∃ a b, s = a ++ (pat ++ b) := by
  induction s with
  | nil =>
    simp only [lcontains, lstarts_iff]
    constructor
    · rintro ⟨r, hr⟩; exact ⟨[], r, by simpa using hr⟩
    · rintro ⟨a, b, hab⟩
      rcases List.append_eq_nil.mp hab.symm with ⟨rfl, h2⟩
      exact ⟨b, by simpa using hab⟩
  | cons c r ih =>
    simp only [lcontains, Bool.or_eq_true, lstarts_iff, ih]
    constructor
    · rintro (⟨w, hw⟩ | ⟨a, b, hab⟩)
      · exact ⟨[], w, by simpa using hw⟩
      · exact ⟨c :: a, b, by simp [hab]⟩
    · rintro ⟨a, b, hab⟩
      cases a with
      | nil => exact Or.inl ⟨b, by simpa using hab⟩
      | cons x xs =>
        right
        rw [List.cons_append] at hab
        injection hab with h1 h2
        exact ⟨xs, b, h2⟩

theorem lcontains_of_lstarts (pat s : List Char) (h : lstarts pat s = true) :
    lcontains pat s = true := by
  cases s with
  | nil => simpa [lcontains] using h
  | cons c r => simp [lcontains, h]

theorem lcontains_infix (pat u x y s : List Char) (hs : s = x ++ (u ++ y))
    (h : lcontains pat u = true) : lcontains pat s = true := by
  rw [lcontains_iff] at h ⊢
  obtain ⟨a, b, rfl⟩ := h
  subst hs
  exact ⟨x ++ a, b ++ y, by simp⟩

theorem lcontains_pat_append (p q s : List Char) (h : lcontains (p ++ q) s = true) :
    lcontains p s = true := by
  rw [lcontains_iff] at h ⊢
  obtain ⟨a, b, rfl⟩ := h
  exact ⟨a, q ++ b, by simp⟩

theorem ltrim_infix (s : List Char) : ∃ x y, s = x ++ (ltrim s ++ y) := by
  unfold ltrim
  refine ⟨s.takeWhile Char.isWhitespace,
    ((s.dropWhile Char.isWhitespace).reverse.takeWhile Char.isWhitespace).reverse, ?_⟩
  conv_lhs => rw [← List.takeWhile_append_dropWhile (p := Char.isWhitespace) (l := s)]
  congr 1
  conv_lhs => rw [← List.reverse_reverse (s.dropWhile Char.isWhitespace)]
  conv_lhs =>
    rw [← List.takeWhile_append_dropWhile (p := Char.isWhitespace)
      (l := (s.dropWhile Char.isWhitespace).reverse)]
  rw [List.reverse_append]

theorem lstarts_of_append : ∀ (pat x y : List Char), pat.length ≤ x.length →
    lstarts pat (x ++ y) = true → lstarts pat x = true
  | [], _, _, _, _ => rfl
  | p :: ps, [], y, hlen, h => by simp at hlen
  | p :: ps, a :: as, y, hlen, h => by
    simp only [List.cons_append, lstarts, Bool.and_eq_true] at h ⊢
    exact ⟨h.1, lstarts_of_append ps as y (by simpa using hlen) h.2⟩

theorem mem_of_lstarts_over : ∀ (pat x y : List Char) (d : Char),
    lstarts pat (x ++ d :: y) = true → x.length < pat.length → d ∈ pat
  | [], x, y, d, h, hlen => by simp at hlen
  | p :: ps, [], y, d, h, hlen => by
    simp only [List.nil_append, lstarts, Bool.and_eq_true, beq_iff_eq] at h
    rw [h.1]
    exact List.mem_cons_self _ _
  | p :: ps, a :: as, y, d, h, hlen => by
    simp only [List.cons_append, lstarts, Bool.and_eq_true] at h
    exact List.mem_cons_of_mem _
      (mem_of_lstarts_over ps as y d h.2 (by simpa using hlen))

theorem lcontains_tail (pat : List Char) (c : Char) (r : List Char)
    (h : lcontains pat (c :: r) = false) : lcontains pat r = false := by
  rw [lcontains, Bool.or_eq_false_iff] at h
  exact h.2

theorem lstarts_head_false (pat : List Char) (c : Char) (r : List Char)
    (h : lcontains pat (c :: r) = false) : lstarts pat (c :: r) = false := by
  rw [lcontains, Bool.or_eq_false_iff] at h
  exact h.1

theorem lcontains_append_sep (pat : List Char) (d : Char) (hne : pat ≠ []) (hd : d ∉ pat) :
    ∀ u v : List Char, lcontains pat u = false → lcontains pat v = false →
      lcontains pat (u ++ d :: v) = false
  | [], v, _, hv => by
    simp only [List.nil_append]
    cases pat with
    | nil => exact absurd rfl hne
    | cons p ps =>
      have hpd : (p == d) = false := by
        simp only [beq_eq_false_iff_ne, ne_eq]
        intro hh
        exact hd (hh ▸ List.mem_cons_self p ps)
      simp [lcontains, lstarts, hpd, hv]
  | a :: as, v, hu, hv => by
    rw [List.cons_append, lcontains, Bool.or_eq_false_iff]
    refine ⟨?_, lcontains_append_sep pat d hne hd as v (lcontains_tail pat a as hu) hv⟩
    cases hcase : lstarts pat (a :: as ++ d :: v) with
    | false => exact hcase
    | true =>
      exfalso
      by_cases hlen : pat.length ≤ (a :: as).length
      · have hst : lstarts pat (a :: as) = true := by
          apply lstarts_of_append pat (a :: as) (d :: v) hlen
          rw [List.cons_append]
          exact hcase
        rw [lstarts_head_false pat a as hu] at hst
        cases hst
      · have hdmem : d ∈ pat := by
          apply mem_of_lstarts_over pat (a :: as) v d
          · rw [List.cons_append]; exact hcase
          · omega
        exact hd hdmem

theorem lfind_bound (pat : List Char) (hne : pat ≠ []) :
    ∀ (s : List Char) (ab : List Char × List Char),
      lfind pat s = some ab → ab.2.length < s.length
  | [], ab, h => by
    cases pat with
    | nil => exact absurd rfl hne
    | cons p ps => simp [lfind, lstarts] at h
  | c :: r, ab, h => by
    rw [lfind] at h
    by_cases hst : lstarts pat (c :: r) = true
    · rw [if_pos hst] at h
      injection h with h
      subst h
      have hp : 1 ≤ pat.length := by
        cases pat with
        | nil => exact absurd rfl hne
        | cons q qs => simp
      simp only [List.length_drop, List.length_cons]
      omega
    · rw [if_neg hst] at h
      cases hf : lfind pat r with
      | none => rw [hf] at h; cases h
      | some ab' =>
        rw [hf] at h
        injection h with h
        subst h
        have := lfind_bound pat hne r ab' hf
        simp only [List.length_cons]
        omega

theorem lfind_none_of_not_contains (pat : List Char) :
    ∀ s : List Char, lcontains pat s = false → lfind pat s = none
  | [], h => by
    rw [lcontains] at h
    rw [lfind, if_neg (by simp [h])]
  | c :: r, h => by
    rw [lfind, if_neg (by simp [lstarts_head_false pat c r h]),
      lfind_none_of_not_contains pat r (lcontains_tail pat c r h)]

theorem lsplitF_fuel (pat : List Char) (hne : pat ≠ []) :
    ∀ (n : Nat) (s : List Char), s.length < n →
      lsplitF pat n s = lsplitF pat (s.length + 1) s := by
  intro n
  induction n using Nat.strong_induction_on with
  | _ n ih =>
    intro s hs
    match n, hs with
    | Nat.succ m, hs =>
      cases hf : lfind pat s with
      | none => simp only [lsplitF, hf]
      | some ab =>
        have hb := lfind_bound pat hne s ab hf
        simp only [lsplitF, hf]
        congr 1
        rw [ih m (by omega) ab.2 (by omega), ih s.length (by omega) ab.2 (by omega)]

theorem lsplit_eq (pat : List Char) (hne : pat ≠ []) (s : List Char) :
    lsplit pat s = (match lfind pat s with
      | none => [s]
      | some ab => ab.1 :: lsplit pat ab.2) := by
  unfold lsplit
  cases hf : lfind pat s with
  | none => simp only [lsplitF, hf]
  | some ab =>
    have hb := lfind_bound pat hne s ab hf
    simp only [lsplitF, hf]
    congr 1
    exact lsplitF_fuel pat hne s.length ab.2 (by omega)

theorem lsplit_of_not_contains (pat : List Char) (hne : pat ≠ []) (s : List Char)
    (h : lcontains pat s = false) : lsplit pat s = [s] := by
  rw [lsplit_eq pat hne s, lfind_none_of_not_contains pat s h]

theorem lstarts_append_self : ∀ pat r : List Char, lstarts pat (pat ++ r) = true
  | [], _ => rfl
  | p :: ps, r => by
    simp only [List.cons_append, lstarts, Bool.and_eq_true, beq_self_eq_true, true_and]
    exact lstarts_append_self ps r

theorem lfind_starts (pat : List Char) (c : Char) (r : List Char)
    (h : lstarts pat (c :: r) = true) :
    lfind pat (c :: r) = some ([], (c :: r).drop pat.length) := by
  rw [lfind, if_pos h]

theorem lcontains_nil_of_ne (pat : List Char) (hne : pat ≠ []) :
    lcontains pat [] = false := by
  cases pat with
  | nil => exact absurd rfl hne
  | cons p ps => simp [lcontains, lstarts]

theorem lfind_f3_end : ∀ w : List Char,
    lcontains "```".data (w ++ ['`', '`']) = false →
    lfind "```".data (w ++ "```".data) = some (w, []) := by
  intro w
  induction w with
  | nil =>
    intro _
    decide
  | cons c w' ih =>
    intro hno
    have hno' : lcontains "```".data (w' ++ ['`', '`']) = false :=
      lcontains_tail _ c _ (by simpa using hno)
    have hstf : lstarts "```".data (c :: (w' ++ "```".data)) = false := by
      cases hst : lstarts "```".data (c :: (w' ++ "```".data)) with
      | false => rfl
      | true =>
        exfalso
        have hocc : lstarts "```".data (c :: (w' ++ ['`', '`'])) = true := by
          rcases w' with _ | ⟨b, _ | ⟨d, rest⟩⟩
          · simp only [List.nil_append] at hst ⊢
            simp only [lstarts, Bool.and_eq_true] at hst ⊢
            exact hst
          · simp only [List.cons_append, List.nil_append] at hst ⊢
            simp only [lstarts, Bool.and_eq_true] at hst ⊢
            exact hst
          · simp only [List.cons_append] at hst ⊢
            simp only [lstarts, Bool.and_eq_true] at hst ⊢
            exact hst
        have hcc : lcontains "```".data ((c :: w') ++ ['`', '`']) = true := by
          apply lcontains_of_lstarts
          simpa using hocc
        rw [hcc] at hno
        cases hno
    rw [List.cons_append, lfind, if_neg (by simp [hstf]), ih hno']

theorem lfind_append_self (pat r : List Char) (hne : pat ≠ []) :
    lfind pat (pat ++ r) = some ([], r) := by
  cases pat with
  | nil => exact absurd rfl hne
  | cons p ps =>
    rw [List.cons_append, lfind,
      if_pos (by rw [← List.cons_append]; exact lstarts_append_self (p :: ps) r)]
    congr 1
    rw [← List.cons_append]
    exact congrArg _ (List.drop_left _ _)

theorem ltrim_cons_ws (c : Char) (hc : c.isWhitespace = true) (s : List Char) :
    ltrim (c :: s) = ltrim s := by
  unfold ltrim
  rw [List.dropWhile_cons_of_pos (by simp [hc])]

theorem ltrim_append_ws (c : Char) (hc : c.isWhitespace = true) (s : List Char) :
    ltrim (s ++ [c]) = ltrim s := by
  unfold ltrim
  rw [List.dropWhile_append]
  by_cases he : (s.dropWhile Char.isWhitespace).isEmpty
  · rw [if_pos he]
    have h1 : List.dropWhile Char.isWhitespace [c] = [] := by
      rw [show ([c] : List Char) = c :: [] from rfl,
        List.dropWhile_cons_of_pos (by simp [hc])]
      rfl
    have h2 : s.dropWhile Char.isWhitespace = [] := by
      simpa [List.isEmpty_iff] using he
    rw [h1, h2]
  · rw [if_neg he, List.reverse_append,
      show ([c] : List Char).reverse = [c] from rfl, List.singleton_append,
      List.dropWhile_cons_of_pos (by simp [hc])]

theorem ltrim_id (s : List Char) (c c' : Char) (t t' : List Char)
    (hs : s = c :: t) (hrev : s.reverse = c' :: t')
    (hc : c.isWhitespace = false) (hc' : c'.isWhitespace = false) : ltrim s = s := by
  unfold ltrim
  rw [hs, List.dropWhile_cons_of_neg (by simp [hc]), ← hs, hrev,
    List.dropWhile_cons_of_neg (by simp [hc']), ← hrev, List.reverse_reverse]

theorem extractJson_unfold (u : List Char) : extractJson u =
    (if lcontains "```json".data (ltrim u) = true then
      ltrim ((lsplit "```".data ((lsplit "```json".data (ltrim u)).getD 1 [])).getD 0 [])
    else if lcontains "```".data (ltrim u) = true then
      ltrim ((lsplit "```".data ((lsplit "```".data (ltrim u)).getD 1 [])).getD 0 [])
    else ltrim u) := rfl

/-- C7 (amended): for every payload `s` that does not itself contain the
triple-backtick fence marker, the LLM-response extraction applied to `s`
wrapped in a ```` ```json ```` fence yields exactly the same text as the
extraction applied to the bare `s` (namely `s` stripped of surrounding
whitespace), so the subsequent JSON decode sees identical input.  When
`s` contains ```` ``` ```` the two extractions can diverge (see the
counterexample). -/
theorem C7_fence_unwrap (s : List Char) (h : lcontains "```".data s = false) :
    extractJson ("```json\n".data ++ s ++ "\n```".data) = extractJson s ∧
    extractJson s = ltrim s := by
  have hne3 : ("```".data : List Char) ≠ [] := by decide
  have hnej : ("```json".data : List Char) ≠ [] := by decide
  have hpatsplit : ("```json".data : List Char) = "```".data ++ "json".data := by decide
  -- the bare side
  have htr : lcontains "```".data (ltrim s) = false := by
    cases hx : lcontains "```".data (ltrim s) with
    | false => rfl
    | true =>
      exfalso
      obtain ⟨x, y, hxy⟩ := ltrim_infix s
      have hc := lcontains_infix "```".data (ltrim s) x y s hxy hx
      rw [hc] at h
      cases h
  have hsj : lcontains "```json".data s = false := by
    cases hx : lcontains "```json".data s with
    | false => rfl
    | true =>
      exfalso
      rw [hpatsplit] at hx
      have := lcontains_pat_append "```".data "json".data s hx
      rw [this] at h
      cases h
  have htrj : lcontains "```json".data (ltrim s) = false := by
    cases hx : lcontains "```json".data (ltrim s) with
    | false => rfl
    | true =>
      exfalso
      obtain ⟨x, y, hxy⟩ := ltrim_infix s
      have hc := lcontains_infix "```json".data (ltrim s) x y s hxy hx
      rw [hc] at hsj
      cases hsj
  have hbare : extractJson s = ltrim s := by
    rw [extractJson_unfold s, if_neg (by simp [htrj]), if_neg (by simp [htr])]
  refine ⟨?_, hbare⟩
  -- the fenced side
  have hF1 : ("```json\n".data ++ s ++ "\n```".data : List Char) =
      "```json".data ++ ('\n' :: (s ++ "\n```".data)) := by
    rw [show ("```json\n".data : List Char) = "```json".data ++ ['\n'] from by decide]
    simp [List.append_assoc]
  have hFhead : ("```json\n".data ++ s ++ "\n```".data : List Char) =
      '`' :: ("``json\n".data ++ (s ++ "\n```".data)) := by
    rw [show ("```json\n".data : List Char) = '`' :: "``json\n".data from by decide]
    simp [List.append_assoc]
  have hFrev : ("```json\n".data ++ s ++ "\n```".data : List Char).reverse =
      '`' :: (['`', '`', '\n'] ++ ("```json\n".data ++ s).reverse) := by
    rw [List.reverse_append]
    rw [show ("\n```".data : List Char).reverse = '`' :: ['`', '`', '\n'] from by decide]
    rfl
  have htrF : ltrim ("```json\n".data ++ s ++ "\n```".data) =
      "```json\n".data ++ s ++ "\n```".data :=
    ltrim_id _ '`' '`' _ _ hFhead hFrev (by decide) (by decide)
  -- no occurrence of the json fence in the remainder
  have hMj : lcontains "```json".data ('\n' :: (s ++ "\n```".data)) = false := by
    have hv : lcontains "```json".data (s ++ ('\n' :: "```".data)) = false := by
      apply lcontains_append_sep "```json".data '\n' hnej (by decide) s "```".data hsj
      decide
    have hv' : lcontains "```json".data (s ++ "\n```".data) = false := by
      rw [show ("\n```".data : List Char) = '\n' :: "```".data from by decide]
      exact hv
    have := lcontains_append_sep "```json".data '\n' hnej (by decide) []
      (s ++ "\n```".data) (lcontains_nil_of_ne _ hnej) hv'
    simpa using this
  have hfind1 : lfind "```json".data ("```json\n".data ++ s ++ "\n```".data) =
      some ([], '\n' :: (s ++ "\n```".data)) := by
    rw [hF1]
    exact lfind_append_self _ _ hnej
  have hsplit1 : lsplit "```json".data ("```json\n".data ++ s ++ "\n```".data) =
      [[], '\n' :: (s ++ "\n```".data)] := by
    rw [lsplit_eq _ hnej _, hfind1]
    show [] :: lsplit "```json".data ('\n' :: (s ++ "\n```".data)) = _
    rw [lsplit_of_not_contains _ hnej _ hMj]
  -- the second split: the remainder ends with the closing fence
  have hMw : ('\n' :: (s ++ "\n```".data) : List Char) =
      ('\n' :: (s ++ ['\n'])) ++ "```".data := by
    rw [show ("\n```".data : List Char) = '\n' :: "```".data from by decide]
    simp [List.append_assoc]
  have hw2 : lcontains "```".data (('\n' :: (s ++ ['\n'])) ++ ['`', '`']) = false := by
    have hv : lcontains "```".data (s ++ ('\n' :: ['`', '`'])) = false := by
      apply lcontains_append_sep "```".data '\n' hne3 (by decide) s ['`', '`'] h
      decide
    have := lcontains_append_sep "```".data '\n' hne3 (by decide) []
      (s ++ ('\n' :: ['`', '`'])) (lcontains_nil_of_ne _ hne3) hv
    simp only [List.nil_append] at this
    rw [List.cons_append, List.append_assoc]
    exact this
  have hfind2 : lfind "```".data ('\n' :: (s ++ "\n```".data)) =
      some ('\n' :: (s ++ ['\n']), []) := by
    rw [hMw]
    exact lfind_f3_end _ hw2
  have hsplit2 : lsplit "```".data ('\n' :: (s ++ "\n```".data)) =
      [('\n' :: (s ++ ['\n'])), []] := by
    rw [lsplit_eq _ hne3 _, hfind2]
    show ('\n' :: (s ++ ['\n'])) :: lsplit "```".data [] = _
    rw [lsplit_of_not_contains _ hne3 [] (lcontains_nil_of_ne _ hne3)]
  -- the fence condition holds on the fenced input
  have hc1 : lcontains "```json".data
      ("```json\n".data ++ s ++ "\n```".data) = true := by
    rw [hF1]
    exact lcontains_of_lstarts _ _ (lstarts_append_self _ _)
  -- assemble
  rw [extractJson_unfold, htrF, if_pos hc1, hsplit1]
  show ltrim ((lsplit "```".data ('\n' :: (s ++ "\n```".data))).getD 0 []) = _
  rw [hsplit2]
  show ltrim ('\n' :: (s ++ ['\n'])) = _
  rw [ltrim_cons_ws '\n' (by decide), ltrim_append_ws '\n' (by decide), hbare]

/-- C7 (counterexample): the claim fails for a payload containing the
fence marker: for `[1, "``` 2 ```"]` (a valid JSON array) the bare
extraction returns the text `2` (a valid JSON scalar) while the fenced
extraction returns `[1, "` (not decodable JSON), so the parsed results
differ. -/
theorem C7_counterexample_backtick_payload :
    extractJson ("```json\n".data ++ "[1, \"``` 2 ```\"]".data ++ "\n```".data) ≠
      extractJson "[1, \"``` 2 ```\"]".data ∧
    extractJson "[1, \"``` 2 ```\"]".data = "2".data ∧
    extractJson ("```json\n".data ++ "[1, \"``` 2 ```\"]".data ++ "\n```".data) =
      "[1, \"".data := by
  refine ⟨by decide, by decide, by decide⟩

/-- C7 (witness): the amended theorem applied to the fence-free payload
`[1, 2]`. -/
theorem C7_fence_unwrap_witness :
    lcontains "```".data "[1, 2]".data = false ∧
    (extractJson ("```json\n".data ++ "[1, 2]".data ++ "\n```".data) =
      extractJson "[1, 2]".data ∧
     extractJson "[1, 2]".data = ltrim "[1, 2]".data) :=
  ⟨by decide, C7_fence_unwrap _ (by decide)⟩
